import Mathlib

/-!
Shallow embedding of `src/main.rs` (a single-account bank ledger).

Modelling conventions:
- `usize` is modelled as `Nat`, `isize` as `Int`; the fallible conversion
  `isize::try_from(u).unwrap()` is modelled by `tryFromUsize : Nat → Option Int`,
  where `none` stands for the panic of `unwrap` on amounts above `isize::MAX`.
- `DateTime<Utc>` is modelled as `Int` (only its total order is used by the code).
- Functions whose Rust execution can panic return `Option`; `none` is the panic.
- `Result<(), &str>` is modelled by the two-variant `WithdrawResult`.
-/

/-- isize::MAX for the 64-bit target: 2^63 - 1. -/
def isizeMax : Nat := 2 ^ 63 - 1

/-- Rust: `struct Money(usize);` — a plain wrapper, no validation. -/
structure Money where
  val : Nat
deriving DecidableEq

/-- Money construction: the tuple-struct constructor `Money(n)`.  It performs no
check whatsoever and always succeeds. -/
def Money.new (n : Nat) : Money := ⟨n⟩

/-- Rust: `enum OperationType { Withdraw, Deposit }`. -/
inductive OperationType where
  | Withdraw
  | Deposit
deriving DecidableEq

/-- Rust: `struct Operation { operation_type, amount: Money, date }`. -/
structure Operation where
  operation_type : OperationType
  amount : Money
  date : Int
deriving DecidableEq

/-- Model of `isize::try_from(n: usize)` followed by `.unwrap()`: succeeds with
the exact value iff `n ≤ isize::MAX`, otherwise `none` (the panic). -/
def tryFromUsize (n : Nat) : Option Int :=
  if n ≤ isizeMax then some ((n : Int)) else none

/-- Checked isize addition: Rust's `+` on isize panics (with overflow checks,
the profile this kata is built and tested under) when the mathematical result
leaves `[isize::MIN, isize::MAX]`; `none` models that panic. -/
def addIsize (x y : Int) : Option Int :=
  if -(2 ^ 63) ≤ x + y ∧ x + y ≤ 2 ^ 63 - 1 then some (x + y) else none

/-- Checked isize subtraction, with the same panic-on-overflow semantics. -/
def subIsize (x y : Int) : Option Int :=
  if -(2 ^ 63) ≤ x - y ∧ x - y ≤ 2 ^ 63 - 1 then some (x - y) else none

/-- Rust `Operation::value`: `+amount` for Deposit, `-amount` for Withdraw,
where the usize amount is widened to isize by `try_from(..).unwrap()`.  The
negation cannot overflow: `try_from` only returns values in `[0, isize::MAX]`,
all of whose negations are representable. -/
def Operation.value (op : Operation) : Option Int :=
  match op.operation_type with
  | OperationType.Deposit => tryFromUsize op.amount.val
  | OperationType.Withdraw => Option.map (fun i => -i) (tryFromUsize op.amount.val)

/-- Rust: `struct BankAccount { operations: Vec<Operation> }`. -/
structure BankAccount where
  operations : List Operation
deriving DecidableEq

/-- Rust `BankAccount::new`: empty operation log. -/
def BankAccount.new : BankAccount := ⟨[]⟩

/-- The iterator sum `operations.iter().map(|op| op.value()).sum::<isize>()`:
a left fold of checked isize additions starting from 0, with the panic of a
`value` unwrap or of an overflowing addition propagated as `none`. -/
def sumValues? : List Operation → Int → Option Int
  | [], acc => some acc
  | op :: rest, acc =>
    Option.bind op.value fun v =>
      Option.bind (addIsize acc v) fun s => sumValues? rest s

/-- Rust `BankAccount::balance`. -/
def BankAccount.balance (a : BankAccount) : Option Int :=
  sumValues? a.operations 0

/-- Rust `BankAccount::make_deposit`: pushes a Deposit operation, never fails. -/
def BankAccount.make_deposit (a : BankAccount) (money : Money) (date : Int) : BankAccount :=
  ⟨a.operations ++ [⟨OperationType.Deposit, money, date⟩]⟩

/-- The error message of `Err("Not enough money")`. -/
def insufficientMsg : String := "Not enough money"

/-- Model of `Result<(), &str>` as returned by `make_withdrawal`. -/
inductive WithdrawResult where
  | Ok
  | Err (msg : String)
deriving DecidableEq

/-- Rust `BankAccount::make_withdrawal`: computes the isize subtraction
`balance() - isize::try_from(money.0).unwrap()` — the balance read, the
widening unwrap and the subtraction itself can each panic (`none`) — rejects
when the candidate balance is below `-50`, otherwise pushes a Withdraw
operation.  The returned account is the state after the call (`&mut self`). -/
def BankAccount.make_withdrawal (a : BankAccount) (money : Money) (date : Int) :
    Option (WithdrawResult × BankAccount) :=
  Option.bind a.balance fun b =>
    Option.bind (tryFromUsize money.val) fun m =>
      Option.bind (subIsize b m) fun new_balance =>
        if new_balance < -50 then
          some (WithdrawResult.Err insufficientMsg, a)
        else
          some (WithdrawResult.Ok, ⟨a.operations ++ [⟨OperationType.Withdraw, money, date⟩]⟩)

/-- Rust: `struct AccountStatementLine { date, amount: isize, balance: isize }`. -/
structure AccountStatementLine where
  date : Int
  amount : Int
  balance : Int
deriving DecidableEq

/-- Rust: `struct AccountStatement { lines: Vec<AccountStatementLine> }`. -/
structure AccountStatement where
  lines : List AccountStatementLine
deriving DecidableEq

/-- The map in `to_statement`: walks the log in insertion order with a mutable
isize running balance (`balance += op.value()`), producing one line per
operation; `none` when a `value` call or the checked `+=` panics. -/
def statementLines : List Operation → Int → Option (List AccountStatementLine)
  | [], _ => some []
  | op :: rest, bal =>
    Option.bind op.value fun v =>
      Option.bind (addIsize bal v) fun bal2 =>
        Option.map (fun ls => ⟨op.date, v, bal2⟩ :: ls) (statementLines rest bal2)

/-- The comparator of `lines.sort_by(|a, b| b.date.cmp(&a.date))`: `x` may come
before `y` iff `x.date ≥ y.date` (descending by date). -/
def dateDesc (x y : AccountStatementLine) : Prop := y.date ≤ x.date

instance : DecidableRel dateDesc := fun x y => Int.decLe y.date x.date

instance : IsTotal AccountStatementLine dateDesc := ⟨fun x y => le_total y.date x.date⟩

instance : IsTrans AccountStatementLine dateDesc := ⟨fun _ _ _ h1 h2 => le_trans h2 h1⟩

/-- Rust `BankAccount::to_statement`: fold the log in insertion order into
lines carrying running balances, then stably sort the lines by date
descending.  Rust's `sort_by` is a stable sort; `List.insertionSort` is the
stable sort by the same total preorder, hence extensionally the same list. -/
def BankAccount.to_statement (a : BankAccount) : Option AccountStatement :=
  Option.map (fun ls => AccountStatement.mk (List.insertionSort dateDesc ls))
    (statementLines a.operations 0)

/-- Spec-side signed value of an operation (`signed_value()` in the spec's
words): `+amount` for Deposit, `-amount` for Withdraw, as an unbounded integer. -/
def specSignedValue (op : Operation) : Int :=
  match op.operation_type with
  | OperationType.Deposit => (op.amount.val : Int)
  | OperationType.Withdraw => -(op.amount.val : Int)

/-- Spec-side sum of signed values of a log. -/
def sumValues (l : List Operation) : Int := (l.map specSignedValue).sum

/-- States reachable from `new()` by deposits and by withdrawal calls that
return (successfully or with an error) rather than panic. -/
inductive Reachable : BankAccount → Prop where
  | base : Reachable BankAccount.new
  | dep (a : BankAccount) (m : Money) (t : Int) :
      Reachable a → Reachable (a.make_deposit m t)
  | wd (a : BankAccount) (m : Money) (t : Int) (r : WithdrawResult) (a' : BankAccount) :
      Reachable a → a.make_withdrawal m t = some (r, a') → Reachable a'

/-- Folds a list of (amount, timestamp) pairs into the account via deposits. -/
def depositAll (a : BankAccount) : List (Money × Int) → BankAccount
  | [] => a
  | p :: rest => depositAll (a.make_deposit p.1 p.2) rest

/-- The two read-only operations of the account, as trace commands. -/
inductive ReadCmd where
  | readBalance
  | readStatement
deriving DecidableEq

/-- The observation a read command produces on a given state (`&self` calls). -/
def readOutput (a : BankAccount) : ReadCmd → Option Int ⊕ Option AccountStatement
  | ReadCmd.readBalance => Sum.inl a.balance
  | ReadCmd.readStatement => Sum.inr a.to_statement

/-- Runs a list of read commands, returning the final state and the outputs in
order.  Reads take `&self`, so the state passed to the tail is unchanged. -/
def runReads (a : BankAccount) : List ReadCmd → BankAccount × List (Option Int ⊕ Option AccountStatement)
  | [] => (a, [])
  | c :: cs => ((runReads a cs).1, readOutput a c :: (runReads a cs).2)

theorem tryFromUsize_some (n : Nat) (v : Int) (h : tryFromUsize n = some v) :
    v = (n : Int) := by
  unfold tryFromUsize at h
  split at h
  · exact (Option.some.inj h).symm
  · cases h

theorem addIsize_some (x y z : Int) (h : addIsize x y = some z) :
    z = x + y ∧ -(2 ^ 63) ≤ z ∧ z ≤ 2 ^ 63 - 1 := by
  unfold addIsize at h
  split at h
  · rename_i hc
    have he := (Option.some.inj h).symm
    exact ⟨he, by omega, by omega⟩
  · cases h

theorem subIsize_some (x y z : Int) (h : subIsize x y = some z) :
    z = x - y ∧ -(2 ^ 63) ≤ z ∧ z ≤ 2 ^ 63 - 1 := by
  unfold subIsize at h
  split at h
  · rename_i hc
    have he := (Option.some.inj h).symm
    exact ⟨he, by omega, by omega⟩
  · cases h

theorem addIsize_eq (x y : Int) (h1 : -(2 ^ 63) ≤ x + y) (h2 : x + y ≤ 2 ^ 63 - 1) :
    addIsize x y = some (x + y) := by
  unfold addIsize
  rw [if_pos ⟨h1, h2⟩]

theorem subIsize_eq (x y : Int) (h1 : -(2 ^ 63) ≤ x - y) (h2 : x - y ≤ 2 ^ 63 - 1) :
    subIsize x y = some (x - y) := by
  unfold subIsize
  rw [if_pos ⟨h1, h2⟩]

theorem value_some_of_le (op : Operation) (h : op.amount.val ≤ isizeMax) :
    op.value = some (specSignedValue op) := by
  have ht : tryFromUsize op.amount.val = some ((op.amount.val : Int)) := by
    unfold tryFromUsize; rw [if_pos h]
  cases hty : op.operation_type <;>
    simp [Operation.value, specSignedValue, hty, ht]

theorem value_none_of_gt (op : Operation) (h : isizeMax < op.amount.val) :
    op.value = none := by
  have ht : tryFromUsize op.amount.val = none := by
    unfold tryFromUsize; rw [if_neg (by omega)]
  cases hty : op.operation_type <;> simp [Operation.value, hty, ht]

theorem value_eq_spec (op : Operation) (v : Int) (h : op.value = some v) :
    v = specSignedValue op := by
  rcases le_or_lt op.amount.val isizeMax with hle | hgt
  · rw [value_some_of_le op hle] at h
    exact (Option.some.inj h).symm
  · rw [value_none_of_gt op hgt] at h
    cases h

theorem sumValues_append (l1 l2 : List Operation) :
    sumValues (l1 ++ l2) = sumValues l1 + sumValues l2 := by
  simp [sumValues]

theorem sumValues_cons (op : Operation) (l : List Operation) :
    sumValues (op :: l) = specSignedValue op + sumValues l := by
  simp [sumValues]

theorem sumValues?_eq_some (l : List Operation) (acc s : Int)
    (h : sumValues? l acc = some s) : s = acc + sumValues l := by
  induction l generalizing acc s with
  | nil =>
    simp only [sumValues?] at h
    have he := Option.some.inj h
    simp [sumValues]
    omega
  | cons op rest ih =>
    simp only [sumValues?] at h
    cases hv : op.value with
    | none => rw [hv] at h; simp at h
    | some v =>
      rw [hv] at h
      rw [Option.some_bind] at h
      cases hadd : addIsize acc v with
      | none => rw [hadd] at h; simp at h
      | some s2 =>
        rw [hadd] at h
        rw [Option.some_bind] at h
        have h1 := ih s2 s h
        have h2 := (addIsize_some acc v s2 hadd).1
        have h3 := value_eq_spec op v hv
        rw [sumValues_cons]
        omega

theorem sumValues?_range (l : List Operation) (acc s : Int)
    (h : sumValues? l acc = some s)
    (hacc : -(2 ^ 63) ≤ acc ∧ acc ≤ 2 ^ 63 - 1) :
    -(2 ^ 63) ≤ s ∧ s ≤ 2 ^ 63 - 1 := by
  induction l generalizing acc s with
  | nil =>
    simp only [sumValues?] at h
    have he := Option.some.inj h
    omega
  | cons op rest ih =>
    simp only [sumValues?] at h
    cases hv : op.value with
    | none => rw [hv] at h; simp at h
    | some v =>
      rw [hv] at h
      rw [Option.some_bind] at h
      cases hadd : addIsize acc v with
      | none => rw [hadd] at h; simp at h
      | some s2 =>
        rw [hadd] at h
        rw [Option.some_bind] at h
        have h2 := addIsize_some acc v s2 hadd
        exact ih s2 s h ⟨h2.2.1, h2.2.2⟩

theorem sumValues?_total (l : List Operation) (acc : Int)
    (ha : ∀ op ∈ l, op.amount.val ≤ isizeMax)
    (hpre : ∀ n, -(2 ^ 63) ≤ acc + sumValues (l.take n) ∧
      acc + sumValues (l.take n) ≤ 2 ^ 63 - 1) :
    sumValues? l acc = some (acc + sumValues l) := by
  induction l generalizing acc with
  | nil =>
    simp only [sumValues?, sumValues, List.map_nil, List.sum_nil]
    exact congrArg some (by omega)
  | cons op rest ih =>
    have hv := value_some_of_le op (ha op (by simp))
    have h1 := hpre 1
    rw [show (op :: rest).take 1 = [op] from rfl] at h1
    have hs1 : sumValues [op] = specSignedValue op := by simp [sumValues]
    rw [hs1] at h1
    have hadd : addIsize acc (specSignedValue op) = some (acc + specSignedValue op) :=
      addIsize_eq _ _ (by omega) (by omega)
    simp only [sumValues?, hv, Option.some_bind, hadd]
    have hpre2 : ∀ n, -(2 ^ 63) ≤ (acc + specSignedValue op) + sumValues (rest.take n) ∧
        (acc + specSignedValue op) + sumValues (rest.take n) ≤ 2 ^ 63 - 1 := by
      intro n
      have h2 := hpre (n + 1)
      rw [List.take_succ_cons, sumValues_cons] at h2
      omega
    rw [ih (acc + specSignedValue op) (fun o ho => ha o (by simp [ho])) hpre2]
    rw [sumValues_cons]
    exact congrArg some (by omega)

theorem sumValues?_append_single (l : List Operation) (op : Operation) (v : Int)
    (hv : op.value = some v) :
    ∀ acc s, sumValues? l acc = some s → addIsize s v = some (s + v) →
      sumValues? (l ++ [op]) acc = some (s + v) := by
  induction l with
  | nil =>
    intro acc s hl hadd
    simp only [sumValues?] at hl
    have he := Option.some.inj hl
    subst he
    simp [sumValues?, hv, hadd]
  | cons o rest ih =>
    intro acc s hl hadd
    simp only [sumValues?, List.cons_append] at hl ⊢
    cases ho : o.value with
    | none =>
      rw [ho] at hl
      simp at hl
    | some w =>
      rw [ho] at hl
      rw [Option.some_bind] at hl
      rw [Option.some_bind]
      cases hadd2 : addIsize acc w with
      | none =>
        rw [hadd2] at hl
        simp at hl
      | some s2 =>
        rw [hadd2] at hl
        rw [Option.some_bind] at hl
        rw [Option.some_bind]
        exact ih s2 s hl hadd

theorem balance_eq_sumValues (a : BankAccount) (b : Int) (h : a.balance = some b) :
    b = sumValues a.operations := by
  have := sumValues?_eq_some a.operations 0 b h
  omega

theorem balance_range (a : BankAccount) (b : Int) (h : a.balance = some b) :
    -(2 ^ 63) ≤ b ∧ b ≤ 2 ^ 63 - 1 :=
  sumValues?_range a.operations 0 b h (by norm_num)

theorem make_withdrawal_eq (a : BankAccount) (m : Money) (t : Int) (b mv nb : Int)
    (hb : a.balance = some b) (hm : tryFromUsize m.val = some mv)
    (hs : subIsize b mv = some nb) :
    a.make_withdrawal m t =
      if nb < -50 then some (WithdrawResult.Err insufficientMsg, a)
      else some (WithdrawResult.Ok,
        BankAccount.mk (a.operations ++ [Operation.mk OperationType.Withdraw m t])) := by
  unfold BankAccount.make_withdrawal
  rw [hb]
  simp only [Option.some_bind]
  rw [hm]
  simp only [Option.some_bind]
  rw [hs]
  simp only [Option.some_bind]

theorem make_withdrawal_none_of_balance (a : BankAccount) (m : Money) (t : Int)
    (hb : a.balance = none) : a.make_withdrawal m t = none := by
  unfold BankAccount.make_withdrawal
  rw [hb]
  rfl

theorem make_withdrawal_none_of_try (a : BankAccount) (m : Money) (t : Int)
    (hm : tryFromUsize m.val = none) : a.make_withdrawal m t = none := by
  unfold BankAccount.make_withdrawal
  cases hbal : a.balance with
  | none => rfl
  | some b =>
    simp only [Option.some_bind]
    rw [hm]
    rfl

theorem make_withdrawal_none_of_sub (a : BankAccount) (m : Money) (t : Int) (b mv : Int)
    (hb : a.balance = some b) (hm : tryFromUsize m.val = some mv)
    (hs : subIsize b mv = none) : a.make_withdrawal m t = none := by
  unfold BankAccount.make_withdrawal
  rw [hb]
  simp only [Option.some_bind]
  rw [hm]
  simp only [Option.some_bind]
  rw [hs]
  rfl

theorem statementLines_length (ops : List Operation) (bal : Int) (ls : List AccountStatementLine)
    (h : statementLines ops bal = some ls) : ls.length = ops.length := by
  induction ops generalizing bal ls with
  | nil =>
    simp only [statementLines] at h
    injection h with h2
    subst h2
    rfl
  | cons op rest ih =>
    simp only [statementLines] at h
    cases hv : op.value with
    | none => rw [hv] at h; simp at h
    | some v =>
      rw [hv] at h
      rw [Option.some_bind] at h
      cases hadd : addIsize bal v with
      | none => rw [hadd] at h; simp at h
      | some bal2 =>
        rw [hadd] at h
        rw [Option.some_bind] at h
        cases hr : statementLines rest bal2 with
        | none => rw [hr] at h; simp at h
        | some ls2 =>
          rw [hr] at h
          simp at h
          subst h
          simp [ih _ _ hr]

theorem statementLines_total (ops : List Operation) (bal : Int)
    (ha : ∀ op ∈ ops, op.amount.val ≤ isizeMax)
    (hpre : ∀ n, -(2 ^ 63) ≤ bal + sumValues (ops.take n) ∧
      bal + sumValues (ops.take n) ≤ 2 ^ 63 - 1) :
    ∃ ls, statementLines ops bal = some ls := by
  induction ops generalizing bal with
  | nil => exact ⟨[], rfl⟩
  | cons op rest ih =>
    have hv := value_some_of_le op (ha op (by simp))
    have h1 := hpre 1
    rw [show (op :: rest).take 1 = [op] from rfl] at h1
    have hs1 : sumValues [op] = specSignedValue op := by simp [sumValues]
    rw [hs1] at h1
    have hadd : addIsize bal (specSignedValue op) = some (bal + specSignedValue op) :=
      addIsize_eq _ _ (by omega) (by omega)
    have hpre2 : ∀ n, -(2 ^ 63) ≤ (bal + specSignedValue op) + sumValues (rest.take n) ∧
        (bal + specSignedValue op) + sumValues (rest.take n) ≤ 2 ^ 63 - 1 := by
      intro n
      have h2 := hpre (n + 1)
      rw [List.take_succ_cons, sumValues_cons] at h2
      omega
    obtain ⟨ls2, hls2⟩ := ih (bal + specSignedValue op) (fun o ho => ha o (by simp [ho])) hpre2
    refine ⟨⟨op.date, specSignedValue op, bal + specSignedValue op⟩ :: ls2, ?_⟩
    simp [statementLines, hv, hadd, hls2]

theorem prefix_bound_step (ops : List Operation) (op : Operation)
    (h : ∀ n, -50 ≤ sumValues (ops.take n))
    (hfull : -50 ≤ sumValues ops + specSignedValue op) :
    ∀ n, -50 ≤ sumValues ((ops ++ [op]).take n) := by
  intro n
  rcases le_or_lt n ops.length with hn | hn
  · rw [List.take_append_of_le_length hn]
    exact h n
  · rw [List.take_of_length_le (by simp; omega)]
    rw [sumValues_append]
    simpa [sumValues] using hfull

theorem sumValues_take_nonneg (l : List Operation)
    (h : ∀ op ∈ l, 0 ≤ specSignedValue op) (n : Nat) :
    0 ≤ sumValues (l.take n) ∧ sumValues (l.take n) ≤ sumValues l := by
  have hsplit : sumValues l = sumValues (l.take n) + sumValues (l.drop n) := by
    rw [← sumValues_append, List.take_append_drop]
  have h1 : 0 ≤ sumValues (l.take n) := by
    unfold sumValues
    apply List.sum_nonneg
    intro x hx
    obtain ⟨op, hop, hfx⟩ := List.mem_map.mp hx
    rw [← hfx]
    exact h op (List.take_subset n l hop)
  have h2 : 0 ≤ sumValues (l.drop n) := by
    unfold sumValues
    apply List.sum_nonneg
    intro x hx
    obtain ⟨op, hop, hfx⟩ := List.mem_map.mp hx
    rw [← hfx]
    exact h op (List.drop_subset n l hop)
  omega

/-- C1 counterexample: with the log [Withdraw 50] (so `balance()` returns -50)
and the amount isize::MAX, both the balance read and the widening succeed, yet
the isize subtraction `-50 - isize::MAX` underflows `isize::MIN`: the program
panics (`none`) instead of returning the InsufficientFunds error with the log
unchanged, as the claim requires for every Money amount. -/
theorem claim1_counterexample :
    (BankAccount.mk [Operation.mk OperationType.Withdraw (Money.new 50) 0]).balance =
      some (-50) ∧
    tryFromUsize (Money.new isizeMax).val = some ((isizeMax : Int)) ∧
    (BankAccount.mk [Operation.mk OperationType.Withdraw (Money.new 50) 0]).make_withdrawal
      (Money.new isizeMax) 1 = none := by
  decide

/-- C1 (amended): for every account state and Money amount for which the call
does not panic — the balance read and the usize→isize widening return (see
C10) and the isize subtraction `balance() - amount` does not underflow
`isize::MIN` — `make_withdrawal` succeeds iff `balance() - amount ≥ -50`; on
success the log grows by exactly the one appended Withdraw entry and the
balance decreases by exactly the amount; on failure it returns the
insufficient-funds error and the account — hence balance and log length — is
unchanged (no partial append). -/
theorem claim1_withdraw_iff (a : BankAccount) (m : Money) (t : Int) (b mv : Int)
    (hb : a.balance = some b) (hm : tryFromUsize m.val = some mv)
    (hsub : -(2 ^ 63) ≤ b - mv) :
    (-50 ≤ b - mv →
      a.make_withdrawal m t =
        some (WithdrawResult.Ok,
          BankAccount.mk (a.operations ++ [Operation.mk OperationType.Withdraw m t])) ∧
      (BankAccount.mk (a.operations ++ [Operation.mk OperationType.Withdraw m t])).balance =
        some (b - mv) ∧
      (BankAccount.mk (a.operations ++ [Operation.mk OperationType.Withdraw m t])).operations.length =
        a.operations.length + 1) ∧
    (b - mv < -50 →
      a.make_withdrawal m t = some (WithdrawResult.Err insufficientMsg, a)) := by
  have hrange := balance_range a b hb
  have hmv := tryFromUsize_some m.val mv hm
  have hmv0 : 0 ≤ mv := by omega
  have hs : subIsize b mv = some (b - mv) := subIsize_eq _ _ hsub (by omega)
  have heq := make_withdrawal_eq a m t b mv (b - mv) hb hm hs
  have hwv : (Operation.mk OperationType.Withdraw m t).value = some (-mv) := by
    simp [Operation.value, hm]
  constructor
  · intro hge
    rw [heq, if_neg (by omega)]
    refine ⟨rfl, ?_, by simp⟩
    show sumValues? (a.operations ++ [Operation.mk OperationType.Withdraw m t]) 0 = some (b - mv)
    have hadd : addIsize b (-mv) = some (b + -mv) := addIsize_eq _ _ (by omega) (by omega)
    rw [sumValues?_append_single a.operations _ (-mv) hwv 0 b hb hadd]
    exact congrArg some (by omega)
  · intro hlt
    rw [heq, if_pos hlt]

theorem claim1_witness :
    BankAccount.new.make_withdrawal (Money.new 50) 0 =
      some (WithdrawResult.Ok,
        BankAccount.mk (BankAccount.new.operations ++
          [Operation.mk OperationType.Withdraw (Money.new 50) 0])) :=
  ((claim1_withdraw_iff BankAccount.new (Money.new 50) 0 0 50
    (by decide) (by decide) (by decide)).1 (by decide)).1

/-- C2: every state reachable from `new()` by deposits and by (successful or
failed) withdrawal calls keeps every prefix of its log summing to at least
-50; in particular whenever `balance()` returns a value, that value is ≥ -50. -/
theorem claim2_overdraft_invariant (a : BankAccount) (h : Reachable a) :
    (∀ n, -50 ≤ sumValues (a.operations.take n)) ∧
    (∀ b, a.balance = some b → -50 ≤ b) := by
  have key : ∀ x, Reachable x → ∀ n, -50 ≤ sumValues (x.operations.take n) := by
    intro x hx
    induction hx with
    | base =>
      intro n
      simp [BankAccount.new, sumValues]
    | dep a0 m t _ ih =>
      have hfull : -50 ≤ sumValues a0.operations +
          specSignedValue (Operation.mk OperationType.Deposit m t) := by
        have h1 := ih a0.operations.length
        rw [List.take_length] at h1
        have h2 : specSignedValue (Operation.mk OperationType.Deposit m t) = (m.val : Int) := rfl
        omega
      exact prefix_bound_step a0.operations _ ih hfull
    | wd a0 m t r a' _ hw ih =>
      cases hbal : a0.balance with
      | none => rw [make_withdrawal_none_of_balance a0 m t hbal] at hw; cases hw
      | some b =>
        cases htm : tryFromUsize m.val with
        | none => rw [make_withdrawal_none_of_try a0 m t htm] at hw; cases hw
        | some mv =>
          cases hsb : subIsize b mv with
          | none =>
            rw [make_withdrawal_none_of_sub a0 m t b mv hbal htm hsb] at hw
            cases hw
          | some nb =>
            rw [make_withdrawal_eq a0 m t b mv nb hbal htm hsb] at hw
            split at hw
            · simp only [Option.some.injEq, Prod.mk.injEq] at hw
              obtain ⟨-, ha⟩ := hw
              subst ha
              exact ih
            · simp only [Option.some.injEq, Prod.mk.injEq] at hw
              obtain ⟨-, ha⟩ := hw
              subst ha
              refine prefix_bound_step a0.operations _ ih ?_
              have h1 := balance_eq_sumValues a0 b hbal
              have h2 := tryFromUsize_some m.val mv htm
              have h3 : specSignedValue (Operation.mk OperationType.Withdraw m t) =
                -(m.val : Int) := rfl
              have h4 := (subIsize_some b mv nb hsb).1
              rename_i hcond
              omega
  refine ⟨key a h, fun b hb => ?_⟩
  have h1 := key a h a.operations.length
  rw [List.take_length] at h1
  have h2 := balance_eq_sumValues a b hb
  omega

theorem claim2_witness :
    -50 ≤ sumValues ((BankAccount.new.make_deposit (Money.new 100) 0).operations.take 1) :=
  (claim2_overdraft_invariant _ (Reachable.dep _ _ _ Reachable.base)).1 1

/-- C3 counterexample: a Money holding `isize::MAX + 1` (not representable as a
non-negative `isize`) is constructed without any failure — the constructor
stores the value unchanged instead of returning an `InvalidAmount` error — and
the widen-to-signed conversion inside `Operation::value` then panics (`none`)
rather than producing any recoverable error value. -/
theorem claim3_counterexample :
    Money.new (isizeMax + 1) = Money.mk (isizeMax + 1) ∧
    (Operation.mk OperationType.Deposit (Money.new (isizeMax + 1)) 0).value = none := by
  decide

/-- C3 (amended): Money construction is total and unvalidated; an amount above
`isize::MAX` is accepted at construction and the widen-to-signed conversion
later panics (`none`) rather than silently wrapping, while every amount up to
`isize::MAX` converts successfully to its exact signed value. -/
theorem claim3_conversion_guard (n : Nat) :
    Money.new n = Money.mk n ∧
    (n ≤ isizeMax → tryFromUsize n = some ((n : Int))) ∧
    (isizeMax < n → tryFromUsize n = none) := by
  refine ⟨rfl, fun h => ?_, fun h => ?_⟩
  · unfold tryFromUsize
    rw [if_pos h]
  · unfold tryFromUsize
    rw [if_neg (by omega)]

theorem claim3_witness : tryFromUsize 5 = some (((5 : Nat) : Int)) :=
  (claim3_conversion_guard 5).2.1 (by decide)

/-- C4: `to_statement` folds the log in insertion order into one line per
operation — running balances reflect insertion order — and then orders the
lines by timestamp descending (stable sort); concretely, for deposits 10 at t1
and 20 at t2 followed by a withdrawal of 15 at t3 (t1 < t2 < t3, encoded
timestamps of 2022-01-14/15/18 08:09:10), the lines are exactly
[(t3, -15, 15), (t2, +20, 30), (t1, +10, 10)]. -/
theorem claim4_statement (a : BankAccount) (ls : List AccountStatementLine)
    (h : statementLines a.operations 0 = some ls) :
    a.to_statement = some (AccountStatement.mk (List.insertionSort dateDesc ls)) ∧
    ls.length = a.operations.length ∧
    List.Perm (List.insertionSort dateDesc ls) ls ∧
    List.Sorted dateDesc (List.insertionSort dateDesc ls) ∧
    ((BankAccount.new.make_deposit (Money.new 10) 20220114080910).make_deposit
        (Money.new 20) 20220115080910).make_withdrawal (Money.new 15) 20220118080910 =
      some (WithdrawResult.Ok, BankAccount.mk
        [Operation.mk OperationType.Deposit (Money.new 10) 20220114080910,
         Operation.mk OperationType.Deposit (Money.new 20) 20220115080910,
         Operation.mk OperationType.Withdraw (Money.new 15) 20220118080910]) ∧
    (BankAccount.mk
        [Operation.mk OperationType.Deposit (Money.new 10) 20220114080910,
         Operation.mk OperationType.Deposit (Money.new 20) 20220115080910,
         Operation.mk OperationType.Withdraw (Money.new 15) 20220118080910]).to_statement =
      some (AccountStatement.mk
        [AccountStatementLine.mk 20220118080910 (-15) 15,
         AccountStatementLine.mk 20220115080910 20 30,
         AccountStatementLine.mk 20220114080910 10 10]) := by
  refine ⟨?_, statementLines_length _ _ _ h, List.perm_insertionSort dateDesc ls,
    List.sorted_insertionSort dateDesc ls, by decide, by decide⟩
  unfold BankAccount.to_statement
  rw [h]
  rfl

theorem claim4_witness :
    (BankAccount.mk [Operation.mk OperationType.Deposit (Money.new 10) 20220114080910]).to_statement =
      some (AccountStatement.mk (List.insertionSort dateDesc
        [AccountStatementLine.mk 20220114080910 10 10])) :=
  (claim4_statement
    (BankAccount.mk [Operation.mk OperationType.Deposit (Money.new 10) 20220114080910])
    [AccountStatementLine.mk 20220114080910 10 10] (by decide)).1

theorem depositAll_operations (ds : List (Money × Int)) (a : BankAccount) :
    (depositAll a ds).operations =
      a.operations ++ ds.map (fun p => Operation.mk OperationType.Deposit p.1 p.2) := by
  induction ds generalizing a with
  | nil => simp [depositAll]
  | cons p rest ih =>
    simp [depositAll, ih, BankAccount.make_deposit]

theorem sumValues_depositList (ds : List (Money × Int)) :
    sumValues (ds.map (fun p => Operation.mk OperationType.Deposit p.1 p.2)) =
      (ds.map (fun p => ((Prod.fst p).val : Int))).sum := by
  induction ds with
  | nil => rfl
  | cons p rest ih =>
    simp only [List.map_cons, List.sum_cons, sumValues] at ih ⊢
    rw [ih]
    simp [specSignedValue]

/-- C5: `balance()` equals the sum of `signed_value()` over all operations in
the log: whenever the program's `balance()` returns a value it is exactly that
sum (it is side-effect free, modelled as a pure function of the log, so it
cannot change the account state); a new account has balance 0; and an account
built only by deposits of amounts a1..an whose total fits in isize (so the
isize accumulator never overflows) has balance a1 + ... + an. -/
theorem claim5_balance_sum (a : BankAccount) (ds : List (Money × Int))
    (hsum : (ds.map (fun p => ((Prod.fst p).val : Int))).sum ≤ 2 ^ 63 - 1) :
    (∀ b, a.balance = some b → b = sumValues a.operations) ∧
    BankAccount.new.balance = some 0 ∧
    (depositAll BankAccount.new ds).balance =
      some ((ds.map (fun p => ((Prod.fst p).val : Int))).sum) := by
  refine ⟨fun b hb => balance_eq_sumValues a b hb, rfl, ?_⟩
  have hops := depositAll_operations ds BankAccount.new
  have htot := sumValues_depositList ds
  have hcast : ((isizeMax : Nat) : Int) = 2 ^ 63 - 1 := by decide
  have hnn0 : ∀ x ∈ ds.map (fun p => ((Prod.fst p).val : Int)), 0 ≤ x := by
    intro x hx
    obtain ⟨p, hp, hfx⟩ := List.mem_map.mp hx
    rw [← hfx]
    exact Int.natCast_nonneg _
  have ha : ∀ op ∈ ds.map (fun p => Operation.mk OperationType.Deposit p.1 p.2),
      op.amount.val ≤ isizeMax := by
    intro op hop
    obtain ⟨p, hp, hfp⟩ := List.mem_map.mp hop
    rw [← hfp]
    show (Prod.fst p).val ≤ isizeMax
    have hmem : ((Prod.fst p).val : Int) ∈ ds.map (fun p => ((Prod.fst p).val : Int)) :=
      List.mem_map.mpr ⟨p, hp, rfl⟩
    have hle := List.single_le_sum hnn0 _ hmem
    omega
  have hnn : ∀ op ∈ ds.map (fun p => Operation.mk OperationType.Deposit p.1 p.2),
      0 ≤ specSignedValue op := by
    intro op hop
    obtain ⟨p, hp, hfp⟩ := List.mem_map.mp hop
    rw [← hfp]
    show (0 : Int) ≤ ((Prod.fst p).val : Int)
    exact Int.natCast_nonneg _
  have hpre : ∀ n, -(2 ^ 63) ≤ (0 : Int) +
      sumValues ((ds.map (fun p => Operation.mk OperationType.Deposit p.1 p.2)).take n) ∧
      (0 : Int) + sumValues ((ds.map (fun p => Operation.mk OperationType.Deposit p.1 p.2)).take n) ≤
        2 ^ 63 - 1 := by
    intro n
    have hb := sumValues_take_nonneg _ hnn n
    omega
  show sumValues? (depositAll BankAccount.new ds).operations 0 =
    some ((ds.map (fun p => ((Prod.fst p).val : Int))).sum)
  rw [hops]
  rw [show BankAccount.new.operations ++
    ds.map (fun p => Operation.mk OperationType.Deposit p.1 p.2) =
    ds.map (fun p => Operation.mk OperationType.Deposit p.1 p.2) from rfl]
  rw [sumValues?_total _ 0 ha hpre]
  exact congrArg some (by omega)

theorem claim5_witness :
    (depositAll BankAccount.new [(Money.new 3, 0)]).balance =
      some (([(Money.new 3, 0)].map (fun p => ((Prod.fst p).val : Int))).sum) :=
  (claim5_balance_sum BankAccount.new [(Money.new 3, 0)] (by decide)).2.2

/-- C6: the overdraft floor is inclusive at exactly -50: from balance 0,
withdraw(50) succeeds leaving balance -50 while withdraw(51) is refused; from
a single deposit of 100, withdraw(200) is refused leaving the account (and
balance 100) unchanged, after which withdraw(120) succeeds leaving balance
-20 = 100 - 120 ≥ -50. -/
theorem claim6_boundary :
    BankAccount.new.make_withdrawal (Money.new 50) 0 =
      some (WithdrawResult.Ok,
        BankAccount.mk [Operation.mk OperationType.Withdraw (Money.new 50) 0]) ∧
    (BankAccount.mk [Operation.mk OperationType.Withdraw (Money.new 50) 0]).balance =
      some (-50) ∧
    BankAccount.new.make_withdrawal (Money.new 51) 0 =
      some (WithdrawResult.Err insufficientMsg, BankAccount.new) ∧
    (BankAccount.new.make_deposit (Money.new 100) 0).make_withdrawal (Money.new 200) 1 =
      some (WithdrawResult.Err insufficientMsg, BankAccount.new.make_deposit (Money.new 100) 0) ∧
    (BankAccount.new.make_deposit (Money.new 100) 0).balance = some 100 ∧
    (BankAccount.new.make_deposit (Money.new 100) 0).make_withdrawal (Money.new 120) 1 =
      some (WithdrawResult.Ok,
        BankAccount.mk [Operation.mk OperationType.Deposit (Money.new 100) 0,
          Operation.mk OperationType.Withdraw (Money.new 120) 1]) ∧
    (BankAccount.mk [Operation.mk OperationType.Deposit (Money.new 100) 0,
      Operation.mk OperationType.Withdraw (Money.new 120) 1]).balance = some (-20) := by
  decide

/-- C7: `Operation::value` returns `+amount` for Deposit and `-amount` for
Withdraw (whenever the amount is representable as an isize, so the widening
does not panic), and it depends only on the operation's type and amount — in
particular never on the timestamp; it is modelled as a pure function. -/
theorem claim7_signed_value (op : Operation) (h : op.amount.val ≤ isizeMax) :
    (op.operation_type = OperationType.Deposit →
      op.value = some ((op.amount.val : Int))) ∧
    (op.operation_type = OperationType.Withdraw →
      op.value = some (-(op.amount.val : Int))) ∧
    (∀ t1 t2 : Int, Operation.value (Operation.mk op.operation_type op.amount t1) =
      Operation.value (Operation.mk op.operation_type op.amount t2)) := by
  have hv := value_some_of_le op h
  refine ⟨fun hty => ?_, fun hty => ?_, fun t1 t2 => rfl⟩
  · rw [hv]
    simp [specSignedValue, hty]
  · rw [hv]
    simp [specSignedValue, hty]

theorem claim7_witness :
    Operation.value (Operation.mk OperationType.Deposit (Money.new 7) 0) = some ((7 : Int)) :=
  (claim7_signed_value (Operation.mk OperationType.Deposit (Money.new 7) 0) (by decide)).1 rfl

/-- C8: `make_deposit` always succeeds: it appends exactly one Deposit
operation carrying the given amount and timestamp to the end of the log, the
log grows by exactly one entry, and the previously appended prefix is
unchanged and in its original order. -/
theorem claim8_deposit (a : BankAccount) (m : Money) (t : Int) :
    (a.make_deposit m t).operations =
      a.operations ++ [Operation.mk OperationType.Deposit m t] ∧
    (a.make_deposit m t).operations.length = a.operations.length + 1 ∧
    (a.make_deposit m t).operations.take a.operations.length = a.operations := by
  refine ⟨rfl, by simp [BankAccount.make_deposit], ?_⟩
  show (a.operations ++ [Operation.mk OperationType.Deposit m t]).take a.operations.length =
    a.operations
  rw [List.take_append_of_le_length (le_refl _), List.take_length]

/-- C9: `balance()` and `to_statement()` take the account by shared reference:
running any sequence of such read commands leaves the state unchanged and each
output is the same function of the (unchanged) state, so repeated reads with
no intervening mutation return identical results. -/
theorem claim9_reads_pure (a : BankAccount) (cs : List ReadCmd) :
    (runReads a cs).1 = a ∧
    (runReads a cs).2 = cs.map (readOutput a) := by
  induction cs with
  | nil => exact ⟨rfl, rfl⟩
  | cons c cs ih =>
    refine ⟨ih.1, ?_⟩
    show readOutput a c :: (runReads a cs).2 = readOutput a c :: cs.map (readOutput a)
    rw [ih.2]

/-- C10 counterexample: the per-amount precondition alone does not make the
operations total — both deposits below carry amounts ≤ isize::MAX, yet the
isize accumulator of `balance()` overflows on the second addition and the
program panics (`none`). -/
theorem claim10_counterexample :
    (∀ op ∈ [Operation.mk OperationType.Deposit (Money.new isizeMax) 0,
        Operation.mk OperationType.Deposit (Money.new isizeMax) 1],
      op.amount.val ≤ isizeMax) ∧
    (BankAccount.mk [Operation.mk OperationType.Deposit (Money.new isizeMax) 0,
        Operation.mk OperationType.Deposit (Money.new isizeMax) 1]).balance = none := by
  decide

/-- C10 (amended): when every amount stored in the account and the withdrawn
amount are at most `isize::MAX`, every running prefix sum of the log stays
within the isize range, and the candidate balance `balance() - amount` does
not underflow `isize::MIN`, then the usize→isize conversions and all isize
accumulator operations succeed, so `balance`, `to_statement` and
`make_withdrawal` return a value (the unwrap branch is unreachable); without
those bounds Money accepts any usize and the operations panic (`none`)
instead of returning an error value — concretely at the amount
`isize::MAX + 1` below (conversion unwrap), and at two deposits of
`isize::MAX` (accumulator overflow, see the counterexample). -/
theorem claim10_totality (a : BankAccount) (m : Money) (t : Int)
    (ha : ∀ op ∈ a.operations, op.amount.val ≤ isizeMax)
    (hm : m.val ≤ isizeMax)
    (hpre : ∀ n, -(2 ^ 63) ≤ sumValues (a.operations.take n) ∧
      sumValues (a.operations.take n) ≤ 2 ^ 63 - 1)
    (hsub : -(2 ^ 63) ≤ sumValues a.operations - (m.val : Int)) :
    a.balance ≠ none ∧ a.to_statement ≠ none ∧ a.make_withdrawal m t ≠ none ∧
    (Operation.mk OperationType.Deposit (Money.new (isizeMax + 1)) 0).value = none ∧
    (BankAccount.mk [Operation.mk OperationType.Deposit (Money.new (isizeMax + 1)) 0]).balance =
      none ∧
    (BankAccount.mk [Operation.mk OperationType.Deposit (Money.new (isizeMax + 1)) 0]).to_statement =
      none ∧
    BankAccount.new.make_withdrawal (Money.new (isizeMax + 1)) 0 = none := by
  have hpre0 : ∀ n, -(2 ^ 63) ≤ (0 : Int) + sumValues (a.operations.take n) ∧
      (0 : Int) + sumValues (a.operations.take n) ≤ 2 ^ 63 - 1 := by
    intro n
    have := hpre n
    omega
  have hbal : a.balance = some ((0 : Int) + sumValues a.operations) :=
    sumValues?_total a.operations 0 ha hpre0
  have htm : tryFromUsize m.val = some ((m.val : Int)) := by
    unfold tryFromUsize
    rw [if_pos hm]
  have hlen := hpre a.operations.length
  rw [List.take_length] at hlen
  have hmv0 : (0 : Int) ≤ (m.val : Int) := Int.natCast_nonneg _
  have hs : subIsize ((0 : Int) + sumValues a.operations) (m.val : Int) =
      some (((0 : Int) + sumValues a.operations) - (m.val : Int)) :=
    subIsize_eq _ _ (by omega) (by omega)
  refine ⟨?_, ?_, ?_, by decide, by decide, by decide, by decide⟩
  · rw [hbal]
    simp
  · obtain ⟨ls, hls⟩ := statementLines_total a.operations 0 ha hpre0
    unfold BankAccount.to_statement
    rw [hls]
    simp
  · rw [make_withdrawal_eq a m t _ _ _ hbal htm hs]
    split <;> simp

theorem claim10_witness : BankAccount.new.balance ≠ none :=
  (claim10_totality BankAccount.new (Money.new 1) 0 (by decide) (by decide)
    (fun n => by constructor <;> simp [BankAccount.new, sumValues])
    (by decide)).1
